import Mathlib

/-!
# Shallow embedding of `src/useShortcuts.ts` (adrihle/shortcuts-hook)

This file embeds the keyboard-shortcut engine of `useShortcuts.ts`:

* `ModifierKey`, `MODIFIERS_KEYS` — the closed modifier set
  `'ctrlKey' | 'shiftKey' | 'metaKey' | 'altKey'`;
* `getEventMapKey` — canonical key of a keyboard event
  (`MODIFIERS_KEYS.filter((m) => event[m]).sort()` joined with `'-'`,
  followed by `'-'` and `event.key.toLowerCase()`);
* `generateShorcutMap` — the lookup-table builder
  (`map.reduceRight((acc, config) => ({ ...acc, [indexKey]: config }), {})`
  with `indexKey` = sorted modifiers joined with `'-'`, then `'-'`, then
  the *raw* `config.key`); note that `config.modifiers.sort()` sorts the
  caller's array **in place**, which the pure embedding renders as the
  stored entry carrying the sorted modifier list (`canonicalize`);
* `getShortcut`, `handleKeyPress` — event resolution and dispatch, with the
  handler's observable behaviour modelled as a trace of `Step`s (action
  invocations and log lines) plus an optional propagated action failure;
* `dispatchKeydown` / `unbind` — the listener lifecycle of the
  `useEffect` block (`addEventListener` / `removeEventListener`).

JavaScript details reflected in the model:

* `Array.prototype.sort()` (default comparator) sorts the modifier *names*
  as strings by code units; on the four names this is the alphabetical
  order `altKey < ctrlKey < metaKey < shiftKey`, which `modRank` encodes
  (`modLe_iff_names` checks the agreement against the names themselves).
  Any sorting algorithm gives the same result on a comparator-total order,
  so the model uses insertion sort.
* `String.prototype.toLowerCase()` is modelled character-wise with
  `Char.toLower` (ASCII case mapping), which covers every string the
  engine itself introduces.
* A JS object `Record<string, Shortcut>` is modelled as an association
  list with unique keys; `{ ...acc, [k]: v }` is `upsert`, property read
  is `lookupSM`.  Property-enumeration order of the record is not
  observable through the engine and is not modelled.
* `silent?: boolean` is `Option Bool`; the truthiness test `if (silent)`
  is `silent.getD false`.
* An action is opaque to the engine; its behaviour is supplied as
  `runAction : α → Except ε Unit` (normal completion or failure), matching
  `await action()` which either resolves or rethrows.
-/

/-- The `ModifierKey` union type:
`keyof Pick<KeyboardEvent, 'ctrlKey' | 'shiftKey' | 'metaKey' | 'altKey'>`. -/
inductive ModifierKey : Type
  | ctrlKey
  | shiftKey
  | metaKey
  | altKey
deriving DecidableEq, Repr, Fintype

/-- The literal name of a `ModifierKey`, as the string it is in TS. -/
def modString : ModifierKey → String
  | .ctrlKey => "ctrlKey"
  | .shiftKey => "shiftKey"
  | .metaKey => "metaKey"
  | .altKey => "altKey"

/-- Position of a modifier name in the code-unit (here: alphabetical)
order used by the default `Array.prototype.sort()` comparator. -/
def modRank : ModifierKey → Nat
  | .altKey => 0
  | .ctrlKey => 1
  | .metaKey => 2
  | .shiftKey => 3

/-- The comparator order of `Array.prototype.sort()` on modifier names. -/
def modLe (a b : ModifierKey) : Prop := modRank a ≤ modRank b

instance (a b : ModifierKey) : Decidable (modLe a b) :=
  Nat.decLe (modRank a) (modRank b)

instance : DecidableRel modLe := fun a b => Nat.decLe (modRank a) (modRank b)

instance : IsTotal ModifierKey modLe := ⟨by decide⟩

instance : IsTrans ModifierKey modLe := ⟨by decide⟩

instance : IsAntisymm ModifierKey modLe := ⟨by decide⟩

/-- `const MODIFIERS_KEYS: ModifierKey[] = ['ctrlKey', 'shiftKey', 'metaKey', 'altKey']`. -/
def MODIFIERS_KEYS : List ModifierKey :=
  [.ctrlKey, .shiftKey, .metaKey, .altKey]

/-- `.sort()` on an array of modifier names (default string comparator). -/
def sortMods (ms : List ModifierKey) : List ModifierKey :=
  ms.insertionSort modLe

/-- `Array.prototype.join('-')`. -/
def joinDash : List String → String
  | [] => ""
  | [s] => s
  | s :: t :: rest => s ++ "-" ++ joinDash (t :: rest)

/-- `Array.prototype.join(',')` — the rendering an array gets inside a
template literal (`${modifiers}`). -/
def joinComma : List String → String
  | [] => ""
  | [s] => s
  | s :: t :: rest => s ++ "," ++ joinComma (t :: rest)

/-- `String.prototype.toLowerCase()`, character-wise ASCII case mapping. -/
def toLowerString (s : String) : String := ⟨s.data.map Char.toLower⟩

/-- The canonical-key construction both sides share: sorted modifiers
joined by `'-'`, then `'-'`, then the base key.  `getEventMapKey` feeds it
the pressed modifiers and the lowercased event key; `generateShorcutMap`
feeds it the declared modifiers and the raw declared key. -/
def canonicalKeyOf (mods : List ModifierKey) (baseKey : String) : String :=
  joinDash ((sortMods mods).map modString) ++ "-" ++ baseKey

/-- The part of a DOM `KeyboardEvent` the engine reads: the four modifier
flags and the `key` string. -/
structure KeyboardEvent : Type where
  ctrlKey : Bool
  shiftKey : Bool
  metaKey : Bool
  altKey : Bool
  key : String
deriving DecidableEq, Repr

/-- The dynamic property read `event[m]` for `m` of type `ModifierKey`. -/
def readFlag (e : KeyboardEvent) : ModifierKey → Bool
  | .ctrlKey => e.ctrlKey
  | .shiftKey => e.shiftKey
  | .metaKey => e.metaKey
  | .altKey => e.altKey

/-- `getEventMapKey`:
`MODIFIERS_KEYS.filter((m) => event[m]).sort()` joined with `'-'`,
followed by `'-'` and `event.key.toLowerCase()`. -/
def getEventMapKey (e : KeyboardEvent) : String :=
  canonicalKeyOf (MODIFIERS_KEYS.filter (readFlag e)) (toLowerString e.key)

/-- The `Shortcut` record.  The opaque `action` callable is represented by
a value of an arbitrary type `α`; the dispatcher receives its behaviour
separately (see `handleKeyPress`). -/
structure Shortcut (α : Type) : Type where
  action : α
  modifiers : List ModifierKey
  key : String
  description : String
deriving DecidableEq, Repr

/-- The `indexKey` computed for one definition inside `generateShorcutMap`:
``` `${modifiers.sort().join('-')}-${key}` ``` — the raw `key`, not
lowercased. -/
def shortcutIndexKey {α : Type} (s : Shortcut α) : String :=
  canonicalKeyOf s.modifiers s.key

/-- The observable effect of `config.modifiers.sort()` mutating the
caller's array in place: the definition the table ends up referencing has
its modifier list sorted. -/
def canonicalize {α : Type} (s : Shortcut α) : Shortcut α :=
  { s with modifiers := sortMods s.modifiers }

/-- `ShortcutMap = Record<string, Shortcut>`, as an association list with
pairwise-distinct keys. -/
abbrev ShortcutMap (α : Type) : Type := List (String × Shortcut α)

/-- `{ ...acc, [k]: v }`: the record `acc` with key `k` now bound to `v`. -/
def upsert {α : Type} (k : String) (v : Shortcut α) (m : ShortcutMap α) :
    ShortcutMap α :=
  (k, v) :: m.filter (fun p => p.1 ≠ k)

/-- Property read `m[k]` on the record. -/
def lookupSM {α : Type} (m : ShortcutMap α) (k : String) : Option (Shortcut α) :=
  (m.find? (fun p => p.1 = k)).map Prod.snd

/-- `generateShorcutMap`: `map.reduceRight((acc, config) => ...)` — the
list is consumed from its last element to its first, each step writing
`config` (whose `modifiers` array `.sort()` just sorted in place) under
its `indexKey`, so an earlier definition overwrites any later one sharing
the key. -/
def generateShorcutMap {α : Type} (map : List (Shortcut α)) : ShortcutMap α :=
  map.foldr (fun config acc => upsert (shortcutIndexKey config) (canonicalize config) acc) []

/-- `getShortcut`: resolve an event against the table. -/
def getShortcut {α : Type} (shortcutMap : ShortcutMap α) (event : KeyboardEvent) :
    Option (Shortcut α) :=
  lookupSM shortcutMap (getEventMapKey event)

/-- `const LOG_TAG = '#hooks #useShortcuts'`. -/
def LOG_TAG : String := "#hooks #useShortcuts"

/-- The `console.info` template literal:
``` `${LOG_TAG} with ${modifiers} executed for key "${key}": ${description}` ```
(`${modifiers}` renders the array joined with `','`). -/
def logMessage {α : Type} (s : Shortcut α) : String :=
  LOG_TAG ++ " with " ++ joinComma (s.modifiers.map modString) ++
    " executed for key \"" ++ s.key ++ "\": " ++ s.description

/-- One observable step of the keystroke handler: an action invocation or
a `console.info` line. -/
inductive Step (α : Type) : Type
  | invoke (a : α)
  | log (msg : String)
deriving DecidableEq, Repr

/-- `handleKeyPress`: resolve the event; if nothing matches, do nothing.
Otherwise `await action()` — if the action fails the failure propagates
(second component) and nothing further runs; if it completes and `silent`
is truthy the handler returns; otherwise it logs one line.  The first
component is the ordered trace of observable steps. -/
def handleKeyPress {α ε : Type} (silent : Option Bool) (runAction : α → Except ε Unit)
    (shortcutMap : ShortcutMap α) (event : KeyboardEvent) :
    List (Step α) × Option ε :=
  match getShortcut shortcutMap event with
  | none => ([], none)
  | some s =>
    match runAction s.action with
    | .error err => ([.invoke s.action], some err)
    | .ok _ =>
      (.invoke s.action :: (if silent.getD false then [] else [.log (logMessage s)]), none)

/-- Whether the `keydown` listener registered by the `useEffect` block is
currently attached. -/
inductive BindState : Type
  | bound
  | unbound
deriving DecidableEq, Repr

/-- The effect cleanup: `document.removeEventListener('keydown', handleKeyPress)`. -/
def unbind (_ : BindState) : BindState := .unbound

/-- A `keydown` event arriving at the document: it reaches
`handleKeyPress` only while the listener is attached. -/
def dispatchKeydown {α ε : Type} (st : BindState) (silent : Option Bool)
    (runAction : α → Except ε Unit) (shortcutMap : ShortcutMap α)
    (event : KeyboardEvent) : List (Step α) × Option ε :=
  match st with
  | .unbound => ([], none)
  | .bound => handleKeyPress silent runAction shortcutMap event

/-! ## Concrete fixtures

The first three mirror `SHORTCUT_CONFIG.map` of the repository's test
file (`test/useShortcut.test.tsx`); the action identifiers stand for the
three jest mocks. -/

/-- First test definition: `{ modifiers: ['shiftKey', 'ctrlKey'], key: 'o' }`. -/
def shortcut1 : Shortcut Nat := ⟨1, [.shiftKey, .ctrlKey], "o", "Sample action 1"⟩

/-- Second test definition: `{ modifiers: ['altKey', 'ctrlKey'], key: 'i' }`. -/
def shortcut2 : Shortcut Nat := ⟨2, [.altKey, .ctrlKey], "i", "Sample action 2"⟩

/-- Third test definition — collides with the first:
`{ modifiers: ['shiftKey', 'ctrlKey'], key: 'o' }`. -/
def shortcut3 : Shortcut Nat := ⟨3, [.shiftKey, .ctrlKey], "o", "Sample action 3"⟩

/-- A definition declared with an upper-case base key. -/
def shortcutUpperA : Shortcut Nat := ⟨0, [], "A", "upper-case key"⟩

/-- A definition whose modifier list repeats `'ctrlKey'`. -/
def shortcutDupCtrl : Shortcut Nat := ⟨4, [.ctrlKey, .ctrlKey], "x", "duplicated modifier"⟩

/-- The keystroke `ctrl+shift+o`. -/
def eventCtrlShiftO : KeyboardEvent := ⟨true, true, false, false, "o"⟩

/-- A keystroke with no modifiers and `key: 'A'` (shifted letter keys
report the upper-case character in `event.key`). -/
def eventUpperA : KeyboardEvent := ⟨false, false, false, false, "A"⟩

/-- An action environment in which every action completes normally. -/
def alwaysOk : Nat → Except Nat Unit := fun _ => .ok ()

/-- An action environment in which every action fails with error 13. -/
def alwaysFail : Nat → Except Nat Unit := fun _ => .error 13

/-- Code-unit lexicographic "less than" on strings (as character lists):
the comparison the default `Array.prototype.sort()` comparator performs. -/
def codeUnitLt : List Char → List Char → Bool
  | [], [] => false
  | [], _ :: _ => true
  | _ :: _, [] => false
  | a :: as, b :: bs => if a < b then true else if b < a then false else codeUnitLt as bs

/-! Character-level analysis tools for canonical-key strings (used to
reason about which strings `getEventMapKey` can produce). -/

/-- The character list of a modifier's name. -/
def nameData (m : ModifierKey) : List Char := (modString m).data

/-- `joinDash` at the character-list level. -/
def joinDashL : List (List Char) → List Char
  | [] => []
  | [p] => p
  | p :: q :: rest => p ++ '-' :: joinDashL (q :: rest)

/-- Split a character list at every `'-'` (the inverse view of a
dash-joined string). -/
def splitDash : List Char → List (List Char)
  | [] => [[]]
  | c :: cs =>
    if c = '-' then [] :: splitDash cs
    else
      match splitDash cs with
      | [] => [[c]]
      | s :: ss => (c :: s) :: ss

/-- Agreement of `modRank` with the comparator the source actually uses:
`modLe a b` holds exactly when the default JS sort comparator does not
order the name of `b` strictly before the name of `a`. -/
theorem modLe_iff_names :
    ∀ a b : ModifierKey,
      modLe a b ↔ codeUnitLt (modString b).data (modString a).data = false := by
  decide

/-! ## Sorting facts -/

/-- `sortMods` permutes its input. -/
theorem sortMods_perm (l : List ModifierKey) : (sortMods l).Perm l :=
  List.perm_insertionSort modLe l

/-- `sortMods` sorts with respect to the comparator order. -/
theorem sortMods_sorted (l : List ModifierKey) : List.Sorted modLe (sortMods l) :=
  List.sorted_insertionSort modLe l

/-- Sorting is invariant under permutation of the input: the canonical
order depends only on which modifiers occur (with multiplicity). -/
theorem sortMods_congr {l₁ l₂ : List ModifierKey} (h : l₁.Perm l₂) :
    sortMods l₁ = sortMods l₂ :=
  List.eq_of_perm_of_sorted
    (((sortMods_perm l₁).trans h).trans (sortMods_perm l₂).symm)
    (sortMods_sorted l₁) (sortMods_sorted l₂)

/-! ## Lookup-table facts -/

/-- Entries whose key differs from the overwritten key survive the
spread-write's `filter` untouched as far as lookups are concerned. -/
theorem lookupSM_filter_ne {α : Type} (m : ShortcutMap α) (k k' : String) (h : k ≠ k') :
    lookupSM (m.filter (fun p => p.1 ≠ k')) k = lookupSM m k := by
  induction m with
  | nil => rfl
  | cons q m ih =>
    rw [List.filter_cons]
    by_cases hq : q.1 = k'
    · have h1 : (decide (q.1 ≠ k') : Bool) = false := by
        simp [hq]
      rw [h1]
      simp only [Bool.false_eq_true, if_false]
      rw [ih]
      have h2 : (decide (q.1 = k) : Bool) = false := by
        simp only [hq, decide_eq_false_iff_not]
        exact fun hk => h hk.symm
      simp only [lookupSM, List.find?_cons, h2]
    · have h1 : (decide (q.1 ≠ k') : Bool) = true := by
        simp [hq]
      rw [h1]
      simp only [if_true]
      by_cases h2 : q.1 = k
      · have h2' : (decide (q.1 = k) : Bool) = true := by simp [h2]
        simp only [lookupSM, List.find?_cons, h2']
      · have h2' : (decide (q.1 = k) : Bool) = false := by simp [h2]
        simp only [lookupSM, List.find?_cons, h2']
        exact ih

/-- Reading the record after a spread-write: the new key returns the new
value, every other key reads through to the old record. -/
theorem lookup_upsert {α : Type} (m : ShortcutMap α) (k' k : String) (v : Shortcut α) :
    lookupSM (upsert k' v m) k = if k = k' then some v else lookupSM m k := by
  by_cases hk : k = k'
  · subst hk
    simp [lookupSM, upsert, List.find?_cons]
  · rw [if_neg hk]
    show lookupSM ((k', v) :: m.filter (fun p => p.1 ≠ k')) k = _
    have h1 : (decide (k' = k) : Bool) = false := by
      simp only [decide_eq_false_iff_not]
      exact fun hk' => hk hk'.symm
    simp only [lookupSM, List.find?_cons, h1]
    exact lookupSM_filter_ne m k k' hk

/-- The table built by `generateShorcutMap` answers every lookup with the
**first** definition of the input list whose `indexKey` is the requested
key (carrying the in-place-sorted modifier list), and with `none` when no
definition has that key. -/
theorem lookup_generateShorcutMap {α : Type} (defs : List (Shortcut α)) (k : String) :
    lookupSM (generateShorcutMap defs) k =
      (defs.find? (fun d => shortcutIndexKey d = k)).map canonicalize := by
  induction defs with
  | nil => rfl
  | cons d ds ih =>
    show lookupSM (upsert (shortcutIndexKey d) (canonicalize d) (generateShorcutMap ds)) k = _
    rw [lookup_upsert]
    by_cases hk : shortcutIndexKey d = k
    · rw [if_pos hk.symm]
      have hd : (decide (shortcutIndexKey d = k) : Bool) = true := by simp [hk]
      simp [List.find?_cons, hd]
    · have hk' : ¬ k = shortcutIndexKey d := fun hkk => hk hkk.symm
      rw [if_neg hk']
      have hd : (decide (shortcutIndexKey d = k) : Bool) = false := by simp [hk]
      simp only [List.find?_cons, hd]
      exact ih

/-- Every entry of the built table comes from an input definition: its key
is that definition's `indexKey` and its value is that definition with the
modifier list sorted in place. -/
theorem mem_generateShorcutMap {α : Type} {defs : List (Shortcut α)}
    {p : String × Shortcut α} (hp : p ∈ generateShorcutMap defs) :
    ∃ d ∈ defs, p = (shortcutIndexKey d, canonicalize d) := by
  induction defs with
  | nil => cases hp
  | cons d ds ih =>
    have hp' : p ∈ upsert (shortcutIndexKey d) (canonicalize d) (generateShorcutMap ds) := hp
    rcases List.mem_cons.mp hp' with h | h
    · exact ⟨d, List.mem_cons_self d ds, h⟩
    · have hmem : p ∈ generateShorcutMap ds := List.mem_of_mem_filter h
      obtain ⟨d', hd', hpd'⟩ := ih hmem
      exact ⟨d', List.mem_cons_of_mem d hd', hpd'⟩

/-- A string is a key of the built table exactly when it is the `indexKey`
of some input definition. -/
theorem mem_keys_generateShorcutMap {α : Type} (defs : List (Shortcut α)) (x : String) :
    x ∈ (generateShorcutMap defs).map Prod.fst ↔ x ∈ defs.map shortcutIndexKey := by
  induction defs with
  | nil => simp [generateShorcutMap]
  | cons d ds ih =>
    show x ∈ (upsert (shortcutIndexKey d) (canonicalize d) (generateShorcutMap ds)).map Prod.fst ↔ _
    simp only [upsert, List.map_cons, List.mem_cons, List.map_cons]
    constructor
    · rintro (h | h)
      · exact Or.inl h
      · obtain ⟨p, hp, hpx⟩ := List.mem_map.mp h
        have hmem : p ∈ generateShorcutMap ds := List.mem_of_mem_filter hp
        have hx : x ∈ (generateShorcutMap ds).map Prod.fst := List.mem_map.mpr ⟨p, hmem, hpx⟩
        exact Or.inr (by simpa using ih.mp hx)
    · rintro (h | h)
      · exact Or.inl h
      · by_cases hx : x = shortcutIndexKey d
        · exact Or.inl hx
        · have hx' : x ∈ (generateShorcutMap ds).map Prod.fst := ih.mpr (by simpa using h)
          obtain ⟨p, hp, hpx⟩ := List.mem_map.mp hx'
          refine Or.inr (List.mem_map.mpr ⟨p, List.mem_filter.mpr ⟨hp, ?_⟩, hpx⟩)
          subst hpx
          simpa using hx

/-- The built table never carries two entries with the same key: the
record semantics of `{ ...acc, [indexKey]: config }` collapses
duplicates. -/
theorem nodup_keys_generateShorcutMap {α : Type} (defs : List (Shortcut α)) :
    ((generateShorcutMap defs).map Prod.fst).Nodup := by
  induction defs with
  | nil => exact List.nodup_nil
  | cons d ds ih =>
    show ((upsert (shortcutIndexKey d) (canonicalize d) (generateShorcutMap ds)).map Prod.fst).Nodup
    simp only [upsert, List.map_cons]
    refine List.nodup_cons.mpr ⟨?_, ?_⟩
    · intro hmem
      obtain ⟨p, hp, hpx⟩ := List.mem_map.mp hmem
      have := List.mem_filter.mp hp |>.2
      rw [hpx] at this
      simp at this
    · have hsub : ((generateShorcutMap ds).filter
          (fun p => p.1 ≠ shortcutIndexKey d)).Sublist (generateShorcutMap ds) :=
        List.filter_sublist _
      exact (hsub.map Prod.fst).nodup ih

/-! ## Event-side facts -/

/-- Every modifier is enumerated by `MODIFIERS_KEYS`. -/
theorem mem_MODIFIERS_KEYS : ∀ m : ModifierKey, m ∈ MODIFIERS_KEYS := by
  decide

/-- `MODIFIERS_KEYS` lists each modifier once. -/
theorem nodup_MODIFIERS_KEYS : MODIFIERS_KEYS.Nodup := by
  decide

/-- The pressed-modifier list captured from an event never repeats a
modifier: each flag is read once. -/
theorem eventMods_nodup (e : KeyboardEvent) :
    (MODIFIERS_KEYS.filter (readFlag e)).Nodup :=
  nodup_MODIFIERS_KEYS.filter (readFlag e)

/-! ## Claim C1 -/

/-- C1.  First-occurrence-wins: if no definition before `d` shares `d`'s
lookup key, the table built from the whole list answers `d`'s key with
`d` itself (the object whose modifier array the builder just sorted in
place) — whatever colliding definitions follow in `post`, they are not
stored under that key, and the builder signals nothing: it is a total
function returning only the table. -/
theorem claim1_first_occurrence_wins {α : Type} (pre post : List (Shortcut α))
    (d : Shortcut α)
    (hpre : ∀ d' ∈ pre, shortcutIndexKey d' ≠ shortcutIndexKey d) :
    lookupSM (generateShorcutMap (pre ++ d :: post)) (shortcutIndexKey d) =
      some (canonicalize d) := by
  rw [lookup_generateShorcutMap]
  have hfind : (pre ++ d :: post).find? (fun d' => shortcutIndexKey d' = shortcutIndexKey d)
      = some d := by
    induction pre with
    | nil =>
      have hd : (decide (shortcutIndexKey d = shortcutIndexKey d) : Bool) = true := by simp
      simp [List.find?_cons, hd]
    | cons q pre ih =>
      have hq : (decide (shortcutIndexKey q = shortcutIndexKey d) : Bool) = false := by
        simp only [decide_eq_false_iff_not]
        exact hpre q (List.mem_cons_self q pre)
      rw [List.cons_append, List.find?_cons, hq]
      exact ih fun d' hd' => hpre d' (List.mem_cons_of_mem q hd')
  rw [hfind]
  rfl

/-- C1 witness: in `[shortcut2, shortcut1, shortcut3]`, the earliest
definition for the key `ctrlKey-shiftKey-o` is `shortcut1`, and it is the
stored one even though `shortcut3` collides with it later. -/
theorem claim1_witness :
    lookupSM (generateShorcutMap [shortcut2, shortcut1, shortcut3])
      (shortcutIndexKey shortcut1) = some (canonicalize shortcut1) :=
  claim1_first_occurrence_wins [shortcut2] [shortcut3] shortcut1 (by decide)

/-! ## Claim C2 -/

/-- C2 counterexample.  The definition `{ modifiers: [], key: 'A' }` and
the keystroke `event.key = 'A'` with no modifier active agree on the
modifier set and on the key up to letter case, yet the two sides
canonicalize differently (`-A` vs `-a`): the builder does **not**
lowercase the declared key, so the definition never matches. -/
theorem claim2_counterexample :
    toLowerString eventUpperA.key = toLowerString shortcutUpperA.key ∧
    (∀ m : ModifierKey, m ∈ shortcutUpperA.modifiers ↔ readFlag eventUpperA m = true) ∧
    getEventMapKey eventUpperA ≠ shortcutIndexKey shortcutUpperA ∧
    getShortcut (generateShorcutMap [shortcutUpperA]) eventUpperA = none := by
  decide

/-- C2 amended.  Lowercasing is applied only on the event side; the two
canonical keys agree — and hence the definition matches the event —
provided the declared key is **already lowercase** (and the declared
modifier list, read as a set, equals the event's active-modifier set).
For declared keys containing an upper-case letter the claimed symmetry
fails (see the counterexample). -/
theorem claim2_amended_event_side_lowercasing {α : Type} (d : Shortcut α)
    (e : KeyboardEvent)
    (hkeylc : toLowerString d.key = d.key)
    (hnd : d.modifiers.Nodup)
    (hmods : ∀ m : ModifierKey, m ∈ d.modifiers ↔ readFlag e m = true)
    (hkey : toLowerString e.key = toLowerString d.key) :
    getEventMapKey e = shortcutIndexKey d := by
  have hfil : (MODIFIERS_KEYS.filter (readFlag e)).Perm d.modifiers := by
    rw [List.perm_ext_iff_of_nodup (eventMods_nodup e) hnd]
    intro m
    rw [List.mem_filter]
    constructor
    · rintro ⟨-, hflag⟩
      exact (hmods m).mpr hflag
    · intro hm
      exact ⟨mem_MODIFIERS_KEYS m, (hmods m).mp hm⟩
  show canonicalKeyOf (MODIFIERS_KEYS.filter (readFlag e)) (toLowerString e.key) =
    canonicalKeyOf d.modifiers d.key
  unfold canonicalKeyOf
  rw [sortMods_congr hfil, hkey, hkeylc]

/-- C2 witness: `shortcut1` (lower-case key `'o'`) matches the keystroke
`ctrl+shift+o`. -/
theorem claim2_witness :
    getEventMapKey eventCtrlShiftO = shortcutIndexKey shortcut1 :=
  claim2_amended_event_side_lowercasing shortcut1 eventCtrlShiftO
    (by decide) (by decide) (by decide) (by decide)

/-! ## Claim C3 -/

/-- C3.  Canonicalization is order-independent in the modifiers: the
shared key construction (`.sort().join('-')` + `'-'` + base key, used by
`generateShorcutMap` via `shortcutIndexKey` and by `getEventMapKey`)
yields the same string on any permutation of the modifier list. -/
theorem claim3_modifier_order_independent (ms₁ ms₂ : List ModifierKey)
    (k : String) (h : ms₁.Perm ms₂) :
    canonicalKeyOf ms₁ k = canonicalKeyOf ms₂ k := by
  unfold canonicalKeyOf
  rw [sortMods_congr h]

/-- C3 witness: `['shiftKey','ctrlKey']` and `['ctrlKey','shiftKey']`
canonicalize identically over the base key `'o'`. -/
theorem claim3_witness :
    canonicalKeyOf [.shiftKey, .ctrlKey] "o" =
      canonicalKeyOf [.ctrlKey, .shiftKey] "o" :=
  claim3_modifier_order_independent _ _ "o" (by decide)

/-! ## Claim C4 -/

/-- C4.  For a matched keystroke whose action completes: with
`silent: true` the action is invoked and nothing is logged; with `silent`
omitted or `false` the trace is exactly the invocation followed by one
log line whose text is
`<LOG_TAG> with <modifiers joined by ','> executed for key "<key>": <description>`
(`logMessage`) — the log step comes after the action's completion, and no
failure is signalled. -/
theorem claim4_log_after_action {α ε : Type} (silent : Option Bool)
    (runAction : α → Except ε Unit) (m : ShortcutMap α) (e : KeyboardEvent)
    (s : Shortcut α) (hs : getShortcut m e = some s)
    (hok : runAction s.action = .ok ()) :
    (silent = some true →
      handleKeyPress silent runAction m e = ([.invoke s.action], none)) ∧
    (silent.getD false = false →
      handleKeyPress silent runAction m e =
        ([.invoke s.action, .log (logMessage s)], none)) := by
  unfold handleKeyPress
  rw [hs]
  dsimp only
  rw [hok]
  constructor
  · intro h
    rw [h]
    rfl
  · intro h
    rw [h]
    rfl

/-- C4 witness: the `ctrl+shift+o` keystroke against the table of
`[shortcut1]`, in silent and in default mode. -/
theorem claim4_witness :
    handleKeyPress (some true) alwaysOk (generateShorcutMap [shortcut1])
        eventCtrlShiftO = ([.invoke (canonicalize shortcut1).action], none) ∧
    handleKeyPress none alwaysOk (generateShorcutMap [shortcut1])
        eventCtrlShiftO =
      ([.invoke (canonicalize shortcut1).action,
        .log (logMessage (canonicalize shortcut1))], none) :=
  ⟨(claim4_log_after_action (some true) alwaysOk _ _ _ (by decide) rfl).1 rfl,
   (claim4_log_after_action none alwaysOk _ _ _ (by decide) rfl).2 rfl⟩

/-! ## Claim C5 -/

/-- C5.  After the effect cleanup removes the handler (`unbind`), no
keyboard event whatsoever — in particular one whose modifier-and-key
combination matched while bound — invokes any action, produces any log
line, or signals any failure. -/
theorem claim5_unbound_no_effect {α ε : Type} (st : BindState)
    (silent : Option Bool) (runAction : α → Except ε Unit)
    (m : ShortcutMap α) (e : KeyboardEvent) :
    dispatchKeydown (unbind st) silent runAction m e = ([], none) :=
  rfl

/-! ## Claim C6 -/

/-- C6.  A keystroke whose canonical key is absent from the table leaves
the handler with an empty trace and no error; and the empty definitions
list builds the empty table, so every keystroke is then unmatched. -/
theorem claim6_unmatched_no_effect {α ε : Type} (silent : Option Bool)
    (runAction : α → Except ε Unit) (m : ShortcutMap α) (e : KeyboardEvent)
    (h : lookupSM m (getEventMapKey e) = none) :
    handleKeyPress silent runAction m e = ([], none) ∧
    generateShorcutMap ([] : List (Shortcut α)) = [] := by
  constructor
  · unfold handleKeyPress getShortcut
    rw [h]
  · rfl

/-- C6 witness: `ctrl+shift+o` against the table built from no
definitions. -/
theorem claim6_witness :
    handleKeyPress (α := Nat) none alwaysOk (generateShorcutMap [])
        eventCtrlShiftO = ([], none) ∧
    generateShorcutMap ([] : List (Shortcut Nat)) = [] :=
  claim6_unmatched_no_effect none alwaysOk (generateShorcutMap []) eventCtrlShiftO rfl

/-! ## Claim C7 -/

/-- C7.  If the matched action fails, the failure leaves the handler
unsuppressed (it is the handler's result), the action is not retried (one
invocation in the trace), and the post-action log line is not emitted —
regardless of the `silent` option. -/
theorem claim7_failure_propagates {α ε : Type} (silent : Option Bool)
    (runAction : α → Except ε Unit) (m : ShortcutMap α) (e : KeyboardEvent)
    (s : Shortcut α) (err : ε) (hs : getShortcut m e = some s)
    (herr : runAction s.action = .error err) :
    handleKeyPress silent runAction m e = ([.invoke s.action], some err) := by
  unfold handleKeyPress
  rw [hs]
  dsimp only
  rw [herr]

/-- C7 witness: the matched `ctrl+shift+o` keystroke whose action fails
with error 13. -/
theorem claim7_witness :
    handleKeyPress none alwaysFail (generateShorcutMap [shortcut1])
      eventCtrlShiftO = ([.invoke (canonicalize shortcut1).action], some 13) :=
  claim7_failure_propagates none alwaysFail _ _ _ 13 (by decide) rfl

/-! ## Claim C8 -/

/-- C8.  The built table has exactly one entry per distinct canonical key
of the input definitions, and no entry under a key that is not some input
definition's canonical key. -/
theorem claim8_table_size {α : Type} (defs : List (Shortcut α)) :
    (generateShorcutMap defs).length = (defs.map shortcutIndexKey).dedup.length ∧
    ∀ p ∈ generateShorcutMap defs, p.1 ∈ defs.map shortcutIndexKey := by
  constructor
  · have hnodup := nodup_keys_generateShorcutMap defs
    have hlen : (generateShorcutMap defs).length =
        ((generateShorcutMap defs).map Prod.fst).length :=
      (List.length_map _ _).symm
    have hfin : ((generateShorcutMap defs).map Prod.fst).toFinset =
        (defs.map shortcutIndexKey).toFinset := by
      ext x
      simp only [List.mem_toFinset]
      exact mem_keys_generateShorcutMap defs x
    calc (generateShorcutMap defs).length
        = ((generateShorcutMap defs).map Prod.fst).length := hlen
      _ = ((generateShorcutMap defs).map Prod.fst).toFinset.card :=
          (List.toFinset_card_of_nodup hnodup).symm
      _ = (defs.map shortcutIndexKey).toFinset.card := by rw [hfin]
      _ = (defs.map shortcutIndexKey).dedup.length := List.card_toFinset _
  · intro p hp
    exact (mem_keys_generateShorcutMap defs p.1).mp
      (List.mem_map.mpr ⟨p, hp, rfl⟩)

/-- C8 witness: the test configuration `[shortcut1, shortcut2, shortcut3]`
has two distinct canonical keys, so the table has two entries; the entry
under `shortcut1`'s key is accounted for. -/
theorem claim8_witness :
    (generateShorcutMap [shortcut1, shortcut2, shortcut3]).length =
      ([shortcut1, shortcut2, shortcut3].map shortcutIndexKey).dedup.length ∧
    (shortcutIndexKey shortcut1, canonicalize shortcut1).1 ∈
      [shortcut1, shortcut2, shortcut3].map shortcutIndexKey :=
  ⟨(claim8_table_size [shortcut1, shortcut2, shortcut3]).1,
   (claim8_table_size [shortcut1, shortcut2, shortcut3]).2
     (shortcutIndexKey shortcut1, canonicalize shortcut1) (by decide)⟩

/-! ## Claim C9 -/

/-- C9 counterexample.  `generateShorcutMap` does **not** leave the input
definition unchanged: `config.modifiers.sort()` sorts the caller's array
in place, so `shortcut1` — declared with `['shiftKey','ctrlKey']` — is
stored (and afterwards observed) with `['ctrlKey','shiftKey']`; the table
entry is not equal to the definition as the caller wrote it. -/
theorem claim9_counterexample :
    canonicalize shortcut1 ≠ shortcut1 ∧
    lookupSM (generateShorcutMap [shortcut1]) (shortcutIndexKey shortcut1) ≠
      some shortcut1 := by
  decide

/-- C9 amended.  The builder stores the caller's definition objects (not
copies), but mutates them: each stored entry is an input definition whose
`action`, `key`, and `description` are untouched and whose `modifiers`
array has been sorted in place (a permutation of the original, changed
exactly when the original was not already sorted). -/
theorem claim9_amended_in_place_sort {α : Type} (d : Shortcut α) :
    (canonicalize d).action = d.action ∧
    (canonicalize d).key = d.key ∧
    (canonicalize d).description = d.description ∧
    (canonicalize d).modifiers = sortMods d.modifiers ∧
    (canonicalize d).modifiers.Perm d.modifiers ∧
    ∀ (defs : List (Shortcut α)) (p : String × Shortcut α),
      p ∈ generateShorcutMap defs → ∃ d' ∈ defs, p.2 = canonicalize d' := by
  refine ⟨rfl, rfl, rfl, rfl, sortMods_perm d.modifiers, ?_⟩
  intro defs p hp
  obtain ⟨d', hd', hpd'⟩ := mem_generateShorcutMap hp
  exact ⟨d', hd', by rw [hpd']⟩

/-- C9 witness: `shortcut1`'s stored entry is `shortcut1` with its
modifier list sorted in place. -/
theorem claim9_witness :
    (canonicalize shortcut1).key = shortcut1.key ∧
    ∃ d' ∈ [shortcut1],
      ((shortcutIndexKey shortcut1, canonicalize shortcut1) :
        String × Shortcut Nat).2 = canonicalize d' :=
  ⟨(claim9_amended_in_place_sort shortcut1).2.1,
   (claim9_amended_in_place_sort shortcut1).2.2.2.2.2 [shortcut1]
     (shortcutIndexKey shortcut1, canonicalize shortcut1) (by decide)⟩

/-! ## Character-level facts for Claim C10 -/

/-- `joinDash` computes, at the character level, `joinDashL`. -/
theorem joinDash_data (parts : List String) :
    (joinDash parts).data = joinDashL (parts.map String.data) := by
  induction parts with
  | nil => rfl
  | cons s rest ih =>
    cases rest with
    | nil => rfl
    | cons t rest' =>
      show (s ++ "-" ++ joinDash (t :: rest')).data =
        s.data ++ '-' :: joinDashL ((t :: rest').map String.data)
      rw [String.data_append, String.data_append, ih]
      have hdash : ("-" : String).data = ['-'] := rfl
      rw [hdash, List.append_assoc]
      rfl

/-- Splitting never produces the empty chunk list. -/
theorem splitDash_ne_nil (xs : List Char) : splitDash xs ≠ [] := by
  induction xs with
  | nil => exact fun h => List.cons_ne_nil [] [] h
  | cons c cs ih =>
    by_cases hc : c = '-'
    · rw [splitDash, if_pos hc]
      exact List.cons_ne_nil _ _
    · rw [splitDash, if_neg hc]
      cases hsp : splitDash cs with
      | nil => exact List.cons_ne_nil _ _
      | cons s ss => exact List.cons_ne_nil _ _

/-- Every character of a chunk of `splitDash xs` is a character of `xs`. -/
theorem splitDash_chunk_chars {xs : List Char} :
    ∀ p ∈ splitDash xs, ∀ c ∈ p, c ∈ xs := by
  induction xs with
  | nil =>
    intro p hp c hc
    have : p = [] := by simpa [splitDash] using hp
    subst this
    cases hc
  | cons x cs ih =>
    intro p hp c hc
    by_cases hx : x = '-'
    · rw [splitDash, if_pos hx] at hp
      rcases List.mem_cons.mp hp with h | h
      · subst h
        cases hc
      · exact List.mem_cons_of_mem x (ih p h c hc)
    · rw [splitDash, if_neg hx] at hp
      cases hsp : splitDash cs with
      | nil => exact absurd hsp (splitDash_ne_nil cs)
      | cons s ss =>
        rw [hsp] at hp
        rcases List.mem_cons.mp hp with h | h
        · subst h
          rcases List.mem_cons.mp hc with h' | h'
          · subst h'
            exact List.mem_cons_self c cs
          · exact List.mem_cons_of_mem x (ih s (hsp ▸ List.mem_cons_self s ss) c h')
        · exact List.mem_cons_of_mem x
            (ih p (hsp ▸ List.mem_cons_of_mem s h) c hc)

/-- Splitting a string that starts with a dash-free chunk followed by a
dash peels the chunk off. -/
theorem splitDash_prepend {xs : List Char} (h : '-' ∉ xs) (ys : List Char) :
    splitDash (xs ++ '-' :: ys) = xs :: splitDash ys := by
  induction xs with
  | nil => simp [splitDash]
  | cons c cs ih =>
    have hc : c ≠ '-' := fun hc => h (hc ▸ List.mem_cons_self c cs)
    have hcs : '-' ∉ cs := fun hmem => h (List.mem_cons_of_mem c hmem)
    rw [List.cons_append, splitDash, if_neg hc, ih hcs]

/-- Splitting a dash-join of dash-free chunks (followed by a dash and a
remainder) recovers the chunks. -/
theorem splitDash_joinDashL : ∀ {parts : List (List Char)}, parts ≠ [] →
    (∀ p ∈ parts, '-' ∉ p) → ∀ rest : List Char,
    splitDash (joinDashL parts ++ '-' :: rest) = parts ++ splitDash rest := by
  intro parts
  induction parts with
  | nil => intro h; exact absurd rfl h
  | cons p parts ih =>
    intro _ hdf rest
    cases parts with
    | nil =>
      show splitDash (p ++ '-' :: rest) = [p] ++ splitDash rest
      rw [splitDash_prepend (hdf p (List.mem_cons_self p [])) rest]
      rfl
    | cons q parts' =>
      show splitDash ((p ++ '-' :: joinDashL (q :: parts')) ++ '-' :: rest) = _
      rw [List.append_assoc, List.cons_append,
        splitDash_prepend (hdf p (List.mem_cons_self p (q :: parts'))) _]
      have hdf' : ∀ r ∈ q :: parts', '-' ∉ r := fun r hr =>
        hdf r (List.mem_cons_of_mem p hr)
      rw [ih (List.cons_ne_nil q parts') hdf' rest]
      rfl

/-- Basic facts about the four modifier names: nonempty, dash-free, and
containing the (upper-case) character `K`. -/
theorem nameData_props :
    ∀ m : ModifierKey, nameData m ≠ [] ∧ '-' ∉ nameData m ∧ 'K' ∈ nameData m := by
  decide

/-- Distinct modifiers have distinct names. -/
theorem nameData_injective : ∀ a b : ModifierKey, nameData a = nameData b → a = b := by
  decide

/-- `Char.ofNat` on a valid code point round-trips through `toNat`. -/
theorem toNat_ofNat_valid (n : Nat) (h : n.isValidChar) : (Char.ofNat n).toNat = n := by
  simp only [Char.ofNat, dif_pos h, Char.ofNatAux, Char.toNat, UInt32.toNat]
  simp [BitVec.toNat_ofNatLt]

/-- ASCII lowercasing never produces the upper-case letter `K`. -/
theorem toLower_ne_K (c : Char) : Char.toLower c ≠ 'K' := by
  show (let n := c.toNat; if n ≥ 65 ∧ n ≤ 90 then Char.ofNat (n + 32) else c) ≠ 'K'
  by_cases hc : c.toNat ≥ 65 ∧ c.toNat ≤ 90
  · show (if c.toNat ≥ 65 ∧ c.toNat ≤ 90 then Char.ofNat (c.toNat + 32) else c) ≠ 'K'
    rw [if_pos hc]
    intro h
    have hvalid : (c.toNat + 32).isValidChar := by
      constructor
      omega
    have hv : (Char.ofNat (c.toNat + 32)).toNat = c.toNat + 32 :=
      toNat_ofNat_valid (c.toNat + 32) hvalid
    rw [h] at hv
    have hK : ('K'.toNat : Nat) = 75 := by decide
    omega
  · show (if c.toNat ≥ 65 ∧ c.toNat ≤ 90 then Char.ofNat (c.toNat + 32) else c) ≠ 'K'
    rw [if_neg hc]
    intro h
    subst h
    have hK : ('K'.toNat : Nat) = 75 := by decide
    omega

/-- A lowercased string contains no `K`. -/
theorem toLowerString_no_K (s : String) : 'K' ∉ (toLowerString s).data := by
  intro h
  have h' : 'K' ∈ s.data.map Char.toLower := h
  obtain ⟨c, -, hc⟩ := List.mem_map.mp h'
  exact toLower_ne_K c hc

/-- Core of C10: a canonical-key string built over a **duplicate-free**
modifier list and a `K`-free base key (the only kind `getEventMapKey`
produces) never equals one built over a modifier list **with** a
duplicate, whatever the two base keys are. -/
theorem dupFree_key_ne_dup_key {A B : List ModifierKey} {L kd : String}
    (hA : A.Nodup) (hB : ¬ B.Nodup) (hK : 'K' ∉ L.data) :
    joinDash (A.map modString) ++ "-" ++ L ≠ joinDash (B.map modString) ++ "-" ++ kd := by
  intro heq
  have hd := congrArg String.data heq
  rw [String.data_append, String.data_append, String.data_append, String.data_append,
    joinDash_data, joinDash_data, List.map_map, List.map_map] at hd
  have hdash : ("-" : String).data = ['-'] := rfl
  rw [hdash, List.append_assoc, List.append_assoc, List.singleton_append,
    List.singleton_append] at hd
  have hmapA : A.map (String.data ∘ modString) = A.map nameData := rfl
  have hmapB : B.map (String.data ∘ modString) = B.map nameData := rfl
  rw [hmapA, hmapB] at hd
  -- hd : joinDashL (A.map nameData) ++ '-' :: L.data
  --    = joinDashL (B.map nameData) ++ '-' :: kd.data
  have hBne : B ≠ [] := by
    intro h0
    exact hB (h0 ▸ List.nodup_nil)
  cases hA0 : A with
  | nil =>
    subst hA0
    obtain ⟨b, B', rfl⟩ := List.exists_cons_of_ne_nil hBne
    obtain ⟨hbne, hbdf, -⟩ := nameData_props b
    cases hnd : nameData b with
    | nil => exact hbne hnd
    | cons hc tc =>
      have hhc : hc ∈ nameData b := hnd ▸ List.mem_cons_self hc tc
      have hceq : '-' = hc := by
        cases B' with
        | nil =>
          rw [show joinDashL (([] : List ModifierKey).map nameData) = [] from rfl,
            List.nil_append,
            show (b :: ([] : List ModifierKey)).map nameData = [nameData b] from rfl,
            show joinDashL [nameData b] = nameData b from rfl, hnd] at hd
          simp only [List.cons_append] at hd
          have h1 := congrArg List.head? hd
          rw [List.head?_cons, List.head?_cons] at h1
          exact Option.some.inj h1
        | cons b2 B'' =>
          rw [show joinDashL (([] : List ModifierKey).map nameData) = [] from rfl,
            List.nil_append,
            show (b :: b2 :: B'').map nameData =
              nameData b :: (b2 :: B'').map nameData from rfl,
            show joinDashL (nameData b :: (b2 :: B'').map nameData) =
              nameData b ++ '-' :: joinDashL ((b2 :: B'').map nameData) from rfl,
            hnd] at hd
          simp only [List.cons_append] at hd
          have h1 := congrArg List.head? hd
          rw [List.head?_cons, List.head?_cons] at h1
          exact Option.some.inj h1
      exact hbdf (hceq ▸ hhc)
  | cons a A' =>
    have hAne : (a :: A').map nameData ≠ [] := by simp
    have hBne' : B.map nameData ≠ [] := by
      intro h0
      exact hBne (List.map_eq_nil_iff.mp h0)
    have hAdf : ∀ p ∈ (a :: A').map nameData, '-' ∉ p := by
      intro p hp
      obtain ⟨m, -, rfl⟩ := List.mem_map.mp hp
      exact (nameData_props m).2.1
    have hBdf : ∀ p ∈ B.map nameData, '-' ∉ p := by
      intro p hp
      obtain ⟨m, -, rfl⟩ := List.mem_map.mp hp
      exact (nameData_props m).2.1
    have hsplit : (a :: A').map nameData ++ splitDash L.data =
        B.map nameData ++ splitDash kd.data := by
      rw [← splitDash_joinDashL hAne hAdf L.data,
        ← splitDash_joinDashL hBne' hBdf kd.data]
      rw [hA0] at hd
      rw [hd]
    have hApN : ((a :: A').map nameData).Nodup :=
      List.Nodup.map (fun x y hxy => nameData_injective x y hxy) (hA0 ▸ hA)
    have hBpN : ¬ (B.map nameData).Nodup := fun h0 => hB (List.Nodup.of_map nameData h0)
    set Aparts := (a :: A').map nameData with hApdef
    set Bparts := B.map nameData with hBpdef
    have hlen : Bparts.length ≤ Aparts.length := by
      by_contra hlt
      push_neg at hlt
      have hdrop1 : (Aparts ++ splitDash L.data).drop Aparts.length = splitDash L.data :=
        List.drop_left Aparts _
      rw [hsplit, List.drop_append_of_le_length (le_of_lt hlt)] at hdrop1
      have hne2 : Bparts.drop Aparts.length ≠ [] := by
        intro h0
        have := List.drop_eq_nil_iff.mp h0
        omega
      obtain ⟨b0, bs, hb0⟩ := List.exists_cons_of_ne_nil hne2
      cases hs0 : splitDash L.data with
      | nil => exact splitDash_ne_nil _ hs0
      | cons s0 ss =>
        rw [hs0, hb0, List.cons_append] at hdrop1
        have hs0b0 : b0 = s0 := ((List.cons.injEq _ _ _ _).mp hdrop1).1
        have hb0mem : b0 ∈ Bparts :=
          List.drop_subset Aparts.length Bparts (hb0 ▸ List.mem_cons_self b0 bs)
        obtain ⟨m, -, hm⟩ := List.mem_map.mp hb0mem
        have hKb0 : 'K' ∈ b0 := hm ▸ (nameData_props m).2.2
        have hs0mem : s0 ∈ splitDash L.data := hs0 ▸ List.mem_cons_self s0 ss
        have : 'K' ∈ L.data := splitDash_chunk_chars s0 hs0mem 'K' (hs0b0 ▸ hKb0)
        exact hK this
    have hpref : Bparts = Aparts.take Bparts.length := by
      have t1 : (Bparts ++ splitDash kd.data).take Bparts.length = Bparts :=
        List.take_left Bparts _
      rw [← hsplit, List.take_append_of_le_length hlen] at t1
      exact t1.symm
    exact hBpN (hpref ▸ (List.take_sublist _ _).nodup hApN)

/-! ## Claim C10 -/

/-- C10.  A definition whose modifier list repeats a modifier gets a table
key that `getEventMapKey` can never produce (each event contributes each
modifier flag at most once), so no keystroke ever resolves to that
definition's table entry: its action is unreachable. -/
theorem claim10_duplicate_modifiers_unreachable {α : Type} (d : Shortcut α)
    (e : KeyboardEvent) (hdup : ¬ d.modifiers.Nodup) :
    getEventMapKey e ≠ shortcutIndexKey d ∧
    ∀ defs : List (Shortcut α),
      getShortcut (generateShorcutMap defs) e ≠ some (canonicalize d) := by
  have hcore : ∀ d' : Shortcut α, ¬ d'.modifiers.Nodup →
      getEventMapKey e ≠ shortcutIndexKey d' := by
    intro d' hdup'
    show canonicalKeyOf (MODIFIERS_KEYS.filter (readFlag e)) (toLowerString e.key) ≠
      canonicalKeyOf d'.modifiers d'.key
    unfold canonicalKeyOf
    apply dupFree_key_ne_dup_key
    · exact ((sortMods_perm _).nodup_iff).mpr (eventMods_nodup e)
    · intro h0
      exact hdup' (((sortMods_perm d'.modifiers).nodup_iff).mp h0)
    · exact toLowerString_no_K e.key
  refine ⟨hcore d hdup, ?_⟩
  intro defs h
  unfold getShortcut at h
  rw [lookup_generateShorcutMap] at h
  cases hf : (defs.find? fun d' => shortcutIndexKey d' = getEventMapKey e) with
  | none =>
    rw [hf] at h
    cases h
  | some d'' =>
    rw [hf] at h
    have hcan : canonicalize d'' = canonicalize d := Option.some.inj h
    have hkey : shortcutIndexKey d'' = getEventMapKey e := by
      have := List.find?_some hf
      exact of_decide_eq_true this
    have hmodseq : sortMods d''.modifiers = sortMods d.modifiers :=
      congrArg Shortcut.modifiers hcan
    have hdup'' : ¬ d''.modifiers.Nodup := by
      intro h0
      apply hdup
      have h1 : (sortMods d''.modifiers).Nodup :=
        ((sortMods_perm d''.modifiers).nodup_iff).mpr h0
      rw [hmodseq] at h1
      exact ((sortMods_perm d.modifiers).nodup_iff).mp h1
    exact hcore d'' hdup'' hkey.symm

/-- C10 witness: the definition with modifiers `['ctrlKey','ctrlKey']` is
unreachable — concretely for the `ctrl+shift+o` keystroke, both in key
comparison and through the table built from `[shortcutDupCtrl]`. -/
theorem claim10_witness :
    ¬ shortcutDupCtrl.modifiers.Nodup ∧
    getEventMapKey eventCtrlShiftO ≠ shortcutIndexKey shortcutDupCtrl ∧
    getShortcut (generateShorcutMap [shortcutDupCtrl]) eventCtrlShiftO ≠
      some (canonicalize shortcutDupCtrl) :=
  ⟨by decide,
   (claim10_duplicate_modifiers_unreachable shortcutDupCtrl eventCtrlShiftO (by decide)).1,
   (claim10_duplicate_modifiers_unreachable shortcutDupCtrl eventCtrlShiftO (by decide)).2
     [shortcutDupCtrl]⟩
